import Mathlib

/-!
Verification of the `transform_bounds` kernel of PyKotorGL.

The C routine reads `vertex_count` vertex positions from a strided byte
buffer, applies the upper 3x4 affine block of a column-major 4x4 matrix to
each position, and reduces the transformed points to componentwise min/max
corners written to `out_min` / `out_max`.

Modelling choices:
- Byte memory of the vertex buffer is a map `ℤ → ℚ`: `mem a` is the
  single-precision value obtained by reading four bytes at byte address
  `a` (the C code casts `base + i * stride_bytes + position_offset` to
  `const float*`); arithmetic on values is modelled exactly over `ℚ`.
- The matrix is a map `ℕ → ℚ` indexed column-major exactly as the source
  indexes it.
- The C `int` parameters are modelled as `ℤ` (the caller guarantees the
  absence of overflow; the spec places all bounds validation on the caller).
- A possibly-null `vertices` pointer is `Option Mem`.
-/

/-- The vertex buffer: `mem a` is the value read as a float at byte
address `a` relative to the buffer base. -/
abbrev Mem : Type := ℤ → ℚ

/-- The 16-entry transform matrix, indexed column-major as in the source. -/
abbrev Mat16 : Type := ℕ → ℚ

/-- A 3-component vector of single-precision values (modelled over `ℚ`). -/
structure Vec3 where
  x : ℚ
  y : ℚ
  z : ℚ
deriving DecidableEq

/-- The position read for record `i`:
`pos = (const float*)(base + i * stride_bytes + position_offset);`
`x = pos[0]; y = pos[1]; z = pos[2];` -/
def readPos (mem : Mem) (stride_bytes position_offset : ℤ) (i : ℕ) : Vec3 :=
  ⟨mem ((i : ℤ) * stride_bytes + position_offset),
   mem ((i : ℤ) * stride_bytes + position_offset + 4),
   mem ((i : ℤ) * stride_bytes + position_offset + 8)⟩

/-- The affine map applied to one position, per the source:
`tx = m00*x + m01*y + m02*z + m03` with `m00 = matrix[0]`, `m01 = matrix[4]`,
`m02 = matrix[8]`, `m03 = matrix[12]`, and analogously for `ty`, `tz`. -/
def transformPoint (m : Mat16) (p : Vec3) : Vec3 :=
  ⟨m 0 * p.x + m 4 * p.y + m 8 * p.z + m 12,
   m 1 * p.x + m 5 * p.y + m 9 * p.z + m 13,
   m 2 * p.x + m 6 * p.y + m 10 * p.z + m 14⟩

/-- The six running bounds of the loop:
`minx, maxx, miny, maxy, minz, maxz`. -/
structure Bounds where
  minx : ℚ
  maxx : ℚ
  miny : ℚ
  maxy : ℚ
  minz : ℚ
  maxz : ℚ
deriving DecidableEq

/-- One iteration of the source loop: at `i == 0` every bound is initialized
to the transformed value; afterwards each bound is updated under a strict
comparison. -/
def tbStep (m : Mat16) (mem : Mem) (stride_bytes position_offset : ℤ)
    (b : Bounds) (i : ℕ) : Bounds :=
  let t := transformPoint m (readPos mem stride_bytes position_offset i)
  if i = 0 then
    ⟨t.x, t.x, t.y, t.y, t.z, t.z⟩
  else
    ⟨if t.x < b.minx then t.x else b.minx,
     if t.x > b.maxx then t.x else b.maxx,
     if t.y < b.miny then t.y else b.miny,
     if t.y > b.maxy then t.y else b.maxy,
     if t.z < b.minz then t.z else b.minz,
     if t.z > b.maxz then t.z else b.maxz⟩

/-- The loop `for (int i = 0; i < vertex_count; ++i)` with all six bounds
initialized to `0.0f` as in the source. -/
def tbLoop (m : Mat16) (mem : Mem) (stride_bytes position_offset : ℤ)
    (n : ℕ) : Bounds :=
  (List.range n).foldl (tbStep m mem stride_bytes position_offset)
    ⟨0, 0, 0, 0, 0, 0⟩

/-- The model of the C function `transform_bounds`: returns the pair
`(out_min, out_max)` as written by the routine. -/
def transform_bounds (vertices : Option Mem)
    (vertex_count stride_bytes position_offset : ℤ) (matrix : Mat16) :
    Vec3 × Vec3 :=
  match vertices with
  | none => (⟨0, 0, 0⟩, ⟨0, 0, 0⟩)
  | some mem =>
    if vertex_count ≤ 0 then (⟨0, 0, 0⟩, ⟨0, 0, 0⟩)
    else
      let b := tbLoop matrix mem stride_bytes position_offset vertex_count.toNat
      (⟨b.minx, b.miny, b.minz⟩, ⟨b.maxx, b.maxy, b.maxz⟩)

/-- The identity 4x4 matrix in column-major order. -/
def idMat : Mat16 := fun i => if i = 0 ∨ i = 5 ∨ i = 10 ∨ i = 15 then 1 else 0

/-- The translation-only matrix: upper 3x3 block identity and translation
column `(tx, ty, tz)` at column-major indices 12, 13, 14. -/
def translateMat (tx ty tz : ℚ) : Mat16 := fun i =>
  if i = 12 then tx else if i = 13 then ty else if i = 14 then tz else idMat i

/-- A tightly packed buffer holding only the positions `p 0, p 1, ...`
(stride 12 bytes, position at offset 0 of each record). -/
def packedMem (p : ℕ → Vec3) : Mem := fun a =>
  if a % 12 = 0 then (p (a / 12).toNat).x
  else if a % 12 = 4 then (p (a / 12).toNat).y
  else if a % 12 = 8 then (p (a / 12).toNat).z
  else 0

/-- The example vertices `{(0,0,0), (1,2,3), (-1,5,0)}` of the spec. -/
def exPoints : ℕ → Vec3 := fun i =>
  if i = 0 then ⟨0, 0, 0⟩
  else if i = 1 then ⟨1, 2, 3⟩
  else if i = 2 then ⟨-1, 5, 0⟩
  else ⟨0, 0, 0⟩

/-- Iterated minimum of `f 0, ..., f k`. -/
def iterMin (f : ℕ → ℚ) : ℕ → ℚ
  | 0 => f 0
  | k + 1 => min (f (k + 1)) (iterMin f k)

/-- Iterated maximum of `f 0, ..., f k`. -/
def iterMax (f : ℕ → ℚ) : ℕ → ℚ
  | 0 => f 0
  | k + 1 => max (f (k + 1)) (iterMax f k)

/-- The two example positions `(1,2,3)` and `(4,5,6)`. -/
def padPoints : ℕ → Vec3 := fun i => if i = 0 then ⟨1, 2, 3⟩ else ⟨4, 5, 6⟩

/-- A padded buffer with 16-byte records and the position at offset 4:
record 0 holds `(1,2,3)` at bytes 4..15, record 1 holds `(4,5,6)` at
bytes 20..31; all padding bytes read as `7`. -/
def padMemEx : Mem := fun a =>
  if a = 4 then 1 else if a = 8 then 2 else if a = 12 then 3
  else if a = 20 then 4 else if a = 24 then 5 else if a = 28 then 6 else 7

/-- A matrix agreeing with the identity except on the last-row entries
(column-major indices 3, 7, 11, 15), where it holds `99`. -/
def junkLastRowMat : Mat16 := fun j =>
  if j = 3 ∨ j = 7 ∨ j = 11 ∨ j = 15 then 99 else idMat j

/-- A cell of the two output arrays: `omin k` is `out_min[k]`,
`omax k` is `out_max[k]`. -/
inductive OutTarget where
  | omin : Fin 3 → OutTarget
  | omax : Fin 3 → OutTarget
deriving DecidableEq

/-- The sequence of writes `(cell, value)` the routine performs, in
execution order: the degenerate branch performs the six chained zero
assignments (rightmost element first, as C chained assignment evaluates),
the main path writes the six bounds after the loop. -/
def tb_writes (vertices : Option Mem)
    (vertex_count stride_bytes position_offset : ℤ) (matrix : Mat16) :
    List (OutTarget × ℚ) :=
  match vertices with
  | none =>
    [(OutTarget.omin 2, 0), (OutTarget.omin 1, 0), (OutTarget.omin 0, 0),
     (OutTarget.omax 2, 0), (OutTarget.omax 1, 0), (OutTarget.omax 0, 0)]
  | some mem =>
    if vertex_count ≤ 0 then
      [(OutTarget.omin 2, 0), (OutTarget.omin 1, 0), (OutTarget.omin 0, 0),
       (OutTarget.omax 2, 0), (OutTarget.omax 1, 0), (OutTarget.omax 0, 0)]
    else
      let b := tbLoop matrix mem stride_bytes position_offset vertex_count.toNat
      [(OutTarget.omin 0, b.minx), (OutTarget.omin 1, b.miny),
       (OutTarget.omin 2, b.minz), (OutTarget.omax 0, b.maxx),
       (OutTarget.omax 1, b.maxy), (OutTarget.omax 2, b.maxz)]

/-- Replay a write sequence on initial contents of the two output
arrays. -/
def applyWrites (ws : List (OutTarget × ℚ))
    (st : (Fin 3 → ℚ) × (Fin 3 → ℚ)) : (Fin 3 → ℚ) × (Fin 3 → ℚ) :=
  ws.foldl (fun st w =>
    match w.1 with
    | OutTarget.omin k => (Function.update st.1 k w.2, st.2)
    | OutTarget.omax k => (st.1, Function.update st.2 k w.2)) st

/-- The routine with the output arrays made explicit: the caller passes the
prior contents of `out_min` / `out_max` and receives their final
contents. -/
def transform_bounds_out (vertices : Option Mem)
    (vertex_count stride_bytes position_offset : ℤ) (matrix : Mat16)
    (out_min0 out_max0 : Fin 3 → ℚ) : (Fin 3 → ℚ) × (Fin 3 → ℚ) :=
  applyWrites
    (tb_writes vertices vertex_count stride_bytes position_offset matrix)
    (out_min0, out_max0)

/-- A read the routine performs: `mat j` reads `matrix[j]`, `vtx a` reads
the float at byte address `a` of the vertex buffer. -/
inductive ReadEvent where
  | mat : ℕ → ReadEvent
  | vtx : ℤ → ReadEvent
deriving DecidableEq

/-- The sequence of input reads the routine performs, in execution order:
nothing in the degenerate branch; otherwise the twelve matrix loads in
source order followed by the three position loads per record. -/
def tb_reads (vertices : Option Mem)
    (vertex_count stride_bytes position_offset : ℤ) : List ReadEvent :=
  match vertices with
  | none => []
  | some _ =>
    if vertex_count ≤ 0 then []
    else
      [ReadEvent.mat 0, ReadEvent.mat 4, ReadEvent.mat 8, ReadEvent.mat 12,
       ReadEvent.mat 1, ReadEvent.mat 5, ReadEvent.mat 9, ReadEvent.mat 13,
       ReadEvent.mat 2, ReadEvent.mat 6, ReadEvent.mat 10, ReadEvent.mat 14] ++
      (List.range vertex_count.toNat).foldr (fun i acc =>
        ReadEvent.vtx ((i : ℤ) * stride_bytes + position_offset) ::
        ReadEvent.vtx ((i : ℤ) * stride_bytes + position_offset + 4) ::
        ReadEvent.vtx ((i : ℤ) * stride_bytes + position_offset + 8) :: acc) []

lemma ite_lt_eq_min (a b : ℚ) : (if a < b then a else b) = min a b := by
  by_cases h : a < b
  · simp [h, min_eq_left h.le]
  · simp [h, min_eq_right (le_of_not_lt h)]

lemma ite_gt_eq_max (a b : ℚ) : (if a > b then a else b) = max a b := by
  by_cases h : a > b
  · simp [h, max_eq_left h.le]
  · simp [h, max_eq_right (le_of_not_lt h)]

lemma inf_range_succ (f : ℕ → ℚ) (k : ℕ) (hk : k ≠ 0) :
    ∀ H : (Finset.range (k + 1)).Nonempty,
      (Finset.range (k + 1)).inf' H f =
        min (f k) ((Finset.range k).inf' (Finset.nonempty_range_iff.mpr hk) f) := by
  rw [Finset.range_succ]
  intro H
  rw [Finset.inf'_insert (Finset.nonempty_range_iff.mpr hk), inf_eq_min]

lemma sup_range_succ (f : ℕ → ℚ) (k : ℕ) (hk : k ≠ 0) :
    ∀ H : (Finset.range (k + 1)).Nonempty,
      (Finset.range (k + 1)).sup' H f =
        max (f k) ((Finset.range k).sup' (Finset.nonempty_range_iff.mpr hk) f) := by
  rw [Finset.range_succ]
  intro H
  rw [Finset.sup'_insert (Finset.nonempty_range_iff.mpr hk), sup_eq_max]

/-- The loop computes the componentwise minima and maxima of the
transformed positions of records `0 .. n-1`. -/
lemma tbLoop_spec (m : Mat16) (mem : Mem) (s o : ℤ) :
    ∀ n : ℕ, (hn : n ≠ 0) →
      tbLoop m mem s o n =
        ⟨(Finset.range n).inf' (Finset.nonempty_range_iff.mpr hn)
            (fun i => (transformPoint m (readPos mem s o i)).x),
         (Finset.range n).sup' (Finset.nonempty_range_iff.mpr hn)
            (fun i => (transformPoint m (readPos mem s o i)).x),
         (Finset.range n).inf' (Finset.nonempty_range_iff.mpr hn)
            (fun i => (transformPoint m (readPos mem s o i)).y),
         (Finset.range n).sup' (Finset.nonempty_range_iff.mpr hn)
            (fun i => (transformPoint m (readPos mem s o i)).y),
         (Finset.range n).inf' (Finset.nonempty_range_iff.mpr hn)
            (fun i => (transformPoint m (readPos mem s o i)).z),
         (Finset.range n).sup' (Finset.nonempty_range_iff.mpr hn)
            (fun i => (transformPoint m (readPos mem s o i)).z)⟩ := by
  intro n
  induction n with
  | zero => intro hn; exact absurd rfl hn
  | succ k ih =>
    intro _
    have hstep : tbLoop m mem s o (k + 1) =
        tbStep m mem s o (tbLoop m mem s o k) k := by
      simp [tbLoop, List.range_succ]
    by_cases hk : k = 0
    · subst hk
      rw [hstep]
      simp [tbStep, Finset.range_one]
    · rw [hstep, ih hk]
      simp only [tbStep, hk, ite_false]
      rw [inf_range_succ _ _ hk, sup_range_succ _ _ hk,
        inf_range_succ _ _ hk, sup_range_succ _ _ hk,
        inf_range_succ _ _ hk, sup_range_succ _ _ hk]
      simp only [ite_lt_eq_min, ite_gt_eq_max]

lemma inf_range_one (f : ℕ → ℚ) :
    ∀ H : (Finset.range 1).Nonempty, (Finset.range 1).inf' H f = f 0 := by
  rw [Finset.range_one]
  intro H
  simp

lemma sup_range_one (f : ℕ → ℚ) :
    ∀ H : (Finset.range 1).Nonempty, (Finset.range 1).sup' H f = f 0 := by
  rw [Finset.range_one]
  intro H
  simp

lemma inf_range_succ_iter (f : ℕ → ℚ) (k : ℕ) :
    ∀ H : (Finset.range (k + 1)).Nonempty,
      (Finset.range (k + 1)).inf' H f = iterMin f k := by
  induction k with
  | zero => exact inf_range_one f
  | succ j ih =>
    intro H
    rw [inf_range_succ f (j + 1) (by omega), ih]
    rfl

lemma sup_range_succ_iter (f : ℕ → ℚ) (k : ℕ) :
    ∀ H : (Finset.range (k + 1)).Nonempty,
      (Finset.range (k + 1)).sup' H f = iterMax f k := by
  induction k with
  | zero => exact sup_range_one f
  | succ j ih =>
    intro H
    rw [sup_range_succ f (j + 1) (by omega), ih]
    rfl

lemma inf_range_iter (f : ℕ → ℚ) (n : ℕ) (hn : n ≠ 0) :
    ∀ H : (Finset.range n).Nonempty,
      (Finset.range n).inf' H f = iterMin f (n - 1) := by
  cases n with
  | zero => exact absurd rfl hn
  | succ k =>
    intro H
    rw [inf_range_succ_iter f k]
    simp

lemma sup_range_iter (f : ℕ → ℚ) (n : ℕ) (hn : n ≠ 0) :
    ∀ H : (Finset.range n).Nonempty,
      (Finset.range n).sup' H f = iterMax f (n - 1) := by
  cases n with
  | zero => exact absurd rfl hn
  | succ k =>
    intro H
    rw [sup_range_succ_iter f k]
    simp

/-- For a present buffer and a positive count, `transform_bounds` returns
the componentwise `inf'` and `sup'` of the transformed positions. -/
lemma transform_bounds_spec (mem : Mem) (vertex_count s o : ℤ) (m : Mat16)
    (hn : vertex_count.toNat ≠ 0) :
    transform_bounds (some mem) vertex_count s o m =
      (⟨(Finset.range vertex_count.toNat).inf' (Finset.nonempty_range_iff.mpr hn)
          (fun i => (transformPoint m (readPos mem s o i)).x),
        (Finset.range vertex_count.toNat).inf' (Finset.nonempty_range_iff.mpr hn)
          (fun i => (transformPoint m (readPos mem s o i)).y),
        (Finset.range vertex_count.toNat).inf' (Finset.nonempty_range_iff.mpr hn)
          (fun i => (transformPoint m (readPos mem s o i)).z)⟩,
       ⟨(Finset.range vertex_count.toNat).sup' (Finset.nonempty_range_iff.mpr hn)
          (fun i => (transformPoint m (readPos mem s o i)).x),
        (Finset.range vertex_count.toNat).sup' (Finset.nonempty_range_iff.mpr hn)
          (fun i => (transformPoint m (readPos mem s o i)).y),
        (Finset.range vertex_count.toNat).sup' (Finset.nonempty_range_iff.mpr hn)
          (fun i => (transformPoint m (readPos mem s o i)).z)⟩) := by
  have hc : ¬ vertex_count ≤ 0 := by omega
  rw [transform_bounds]
  simp only [hc, ite_false]
  rw [tbLoop_spec m mem s o vertex_count.toNat hn]

/-- C1: for a non-null vertex buffer and `vertex_count > 0`
(equivalently `vertex_count.toNat ≠ 0`), `out_min` holds the componentwise
minimum and `out_max` the componentwise maximum, over all `vertex_count`
records, of the transformed positions: the position of record `i` is read
at byte offset `i * stride_bytes + position_offset` and mapped by the upper
3x4 block of the column-major matrix. -/
theorem c1_componentwise_minmax (mem : Mem)
    (vertex_count stride_bytes position_offset : ℤ) (matrix : Mat16)
    (hn : vertex_count.toNat ≠ 0) :
    transform_bounds (some mem) vertex_count stride_bytes position_offset matrix =
      (⟨(Finset.range vertex_count.toNat).inf' (Finset.nonempty_range_iff.mpr hn)
          (fun i => (transformPoint matrix (readPos mem stride_bytes position_offset i)).x),
        (Finset.range vertex_count.toNat).inf' (Finset.nonempty_range_iff.mpr hn)
          (fun i => (transformPoint matrix (readPos mem stride_bytes position_offset i)).y),
        (Finset.range vertex_count.toNat).inf' (Finset.nonempty_range_iff.mpr hn)
          (fun i => (transformPoint matrix (readPos mem stride_bytes position_offset i)).z)⟩,
       ⟨(Finset.range vertex_count.toNat).sup' (Finset.nonempty_range_iff.mpr hn)
          (fun i => (transformPoint matrix (readPos mem stride_bytes position_offset i)).x),
        (Finset.range vertex_count.toNat).sup' (Finset.nonempty_range_iff.mpr hn)
          (fun i => (transformPoint matrix (readPos mem stride_bytes position_offset i)).y),
        (Finset.range vertex_count.toNat).sup' (Finset.nonempty_range_iff.mpr hn)
          (fun i => (transformPoint matrix (readPos mem stride_bytes position_offset i)).z)⟩) :=
  transform_bounds_spec mem vertex_count stride_bytes position_offset matrix hn

/-- C1 witness: the spec's example — vertices `{(0,0,0), (1,2,3), (-1,5,0)}`
tightly packed, identity matrix — yields `out_min = (-1,0,0)`,
`out_max = (1,5,3)`. -/
theorem c1_componentwise_minmax_witness :
    transform_bounds (some (packedMem exPoints)) 3 12 0 idMat =
      (⟨-1, 0, 0⟩, ⟨1, 5, 3⟩) := by
  rw [c1_componentwise_minmax (packedMem exPoints) 3 12 0 idMat (by decide)]
  have h3 : Int.toNat 3 ≠ 0 := by decide
  simp only [inf_range_iter _ _ h3, sup_range_iter _ _ h3]
  norm_num [iterMin, iterMax, transformPoint, readPos, packedMem, exPoints, idMat,
    min_def, max_def, show Int.toNat 2 = 2 from rfl, show Int.toNat 1 = 1 from rfl]

/-- C2: when `vertices` is null or `vertex_count <= 0`, the function writes
`(0,0,0)` to both `out_min` and `out_max`, regardless of `stride_bytes`,
`position_offset`, or the matrix contents. -/
theorem c2_degenerate_zero (vertices : Option Mem)
    (vertex_count stride_bytes position_offset : ℤ) (matrix : Mat16)
    (h : vertices = none ∨ vertex_count ≤ 0) :
    transform_bounds vertices vertex_count stride_bytes position_offset matrix =
      (⟨0, 0, 0⟩, ⟨0, 0, 0⟩) := by
  rcases h with h | h
  · subst h; rfl
  · cases vertices with
    | none => rfl
    | some mem => simp [transform_bounds, h]

/-- C2 witness: a null buffer (with positive count) yields the zero box. -/
theorem c2_degenerate_zero_witness :
    transform_bounds none 5 12 0 idMat = (⟨0, 0, 0⟩, ⟨0, 0, 0⟩) :=
  c2_degenerate_zero none 5 12 0 idMat (Or.inl rfl)

/-- C3: with a non-null buffer and `vertex_count > 0`, every transformed
vertex lies componentwise within the closed interval
`[out_min, out_max]`. -/
theorem c3_containment (mem : Mem)
    (vertex_count stride_bytes position_offset : ℤ) (matrix : Mat16)
    (hc : 0 < vertex_count) (i : ℕ) (hi : (i : ℤ) < vertex_count) :
    (transform_bounds (some mem) vertex_count stride_bytes position_offset matrix).1.x ≤
        (transformPoint matrix (readPos mem stride_bytes position_offset i)).x ∧
      (transformPoint matrix (readPos mem stride_bytes position_offset i)).x ≤
        (transform_bounds (some mem) vertex_count stride_bytes position_offset matrix).2.x ∧
      (transform_bounds (some mem) vertex_count stride_bytes position_offset matrix).1.y ≤
        (transformPoint matrix (readPos mem stride_bytes position_offset i)).y ∧
      (transformPoint matrix (readPos mem stride_bytes position_offset i)).y ≤
        (transform_bounds (some mem) vertex_count stride_bytes position_offset matrix).2.y ∧
      (transform_bounds (some mem) vertex_count stride_bytes position_offset matrix).1.z ≤
        (transformPoint matrix (readPos mem stride_bytes position_offset i)).z ∧
      (transformPoint matrix (readPos mem stride_bytes position_offset i)).z ≤
        (transform_bounds (some mem) vertex_count stride_bytes position_offset matrix).2.z := by
  have hn : vertex_count.toNat ≠ 0 := by omega
  rw [transform_bounds_spec mem vertex_count stride_bytes position_offset matrix hn]
  have hmem : i ∈ Finset.range vertex_count.toNat := by
    rw [Finset.mem_range]; omega
  dsimp only
  exact ⟨Finset.inf'_le
      (fun j => (transformPoint matrix (readPos mem stride_bytes position_offset j)).x) hmem,
    Finset.le_sup'
      (fun j => (transformPoint matrix (readPos mem stride_bytes position_offset j)).x) hmem,
    Finset.inf'_le
      (fun j => (transformPoint matrix (readPos mem stride_bytes position_offset j)).y) hmem,
    Finset.le_sup'
      (fun j => (transformPoint matrix (readPos mem stride_bytes position_offset j)).y) hmem,
    Finset.inf'_le
      (fun j => (transformPoint matrix (readPos mem stride_bytes position_offset j)).z) hmem,
    Finset.le_sup'
      (fun j => (transformPoint matrix (readPos mem stride_bytes position_offset j)).z) hmem⟩

/-- C3 witness: containment of the second example vertex `(1,2,3)` under
the identity matrix. -/
theorem c3_containment_witness :
    (transform_bounds (some (packedMem exPoints)) 3 12 0 idMat).1.x ≤
        (transformPoint idMat (readPos (packedMem exPoints) 12 0 1)).x ∧
      (transformPoint idMat (readPos (packedMem exPoints) 12 0 1)).x ≤
        (transform_bounds (some (packedMem exPoints)) 3 12 0 idMat).2.x ∧
      (transform_bounds (some (packedMem exPoints)) 3 12 0 idMat).1.y ≤
        (transformPoint idMat (readPos (packedMem exPoints) 12 0 1)).y ∧
      (transformPoint idMat (readPos (packedMem exPoints) 12 0 1)).y ≤
        (transform_bounds (some (packedMem exPoints)) 3 12 0 idMat).2.y ∧
      (transform_bounds (some (packedMem exPoints)) 3 12 0 idMat).1.z ≤
        (transformPoint idMat (readPos (packedMem exPoints) 12 0 1)).z ∧
      (transformPoint idMat (readPos (packedMem exPoints) 12 0 1)).z ≤
        (transform_bounds (some (packedMem exPoints)) 3 12 0 idMat).2.z :=
  c3_containment (packedMem exPoints) 3 12 0 idMat (by norm_num) 1 (by norm_num)

/-- C4: with a non-null buffer and `vertex_count > 0`, the outputs satisfy
`out_min[k] <= out_max[k]` on every component. -/
theorem c4_min_le_max (mem : Mem)
    (vertex_count stride_bytes position_offset : ℤ) (matrix : Mat16)
    (hc : 0 < vertex_count) :
    (transform_bounds (some mem) vertex_count stride_bytes position_offset matrix).1.x ≤
        (transform_bounds (some mem) vertex_count stride_bytes position_offset matrix).2.x ∧
      (transform_bounds (some mem) vertex_count stride_bytes position_offset matrix).1.y ≤
        (transform_bounds (some mem) vertex_count stride_bytes position_offset matrix).2.y ∧
      (transform_bounds (some mem) vertex_count stride_bytes position_offset matrix).1.z ≤
        (transform_bounds (some mem) vertex_count stride_bytes position_offset matrix).2.z := by
  have hn : vertex_count.toNat ≠ 0 := by omega
  rw [transform_bounds_spec mem vertex_count stride_bytes position_offset matrix hn]
  have hmem : 0 ∈ Finset.range vertex_count.toNat := by
    rw [Finset.mem_range]; omega
  dsimp only
  exact ⟨le_trans
      (Finset.inf'_le
        (fun j => (transformPoint matrix (readPos mem stride_bytes position_offset j)).x) hmem)
      (Finset.le_sup'
        (fun j => (transformPoint matrix (readPos mem stride_bytes position_offset j)).x) hmem),
    le_trans
      (Finset.inf'_le
        (fun j => (transformPoint matrix (readPos mem stride_bytes position_offset j)).y) hmem)
      (Finset.le_sup'
        (fun j => (transformPoint matrix (readPos mem stride_bytes position_offset j)).y) hmem),
    le_trans
      (Finset.inf'_le
        (fun j => (transformPoint matrix (readPos mem stride_bytes position_offset j)).z) hmem)
      (Finset.le_sup'
        (fun j => (transformPoint matrix (readPos mem stride_bytes position_offset j)).z) hmem)⟩

/-- C4 witness: on the spec's example the min corner is below the max
corner on every component. -/
theorem c4_min_le_max_witness :
    (transform_bounds (some (packedMem exPoints)) 3 12 0 idMat).1.x ≤
        (transform_bounds (some (packedMem exPoints)) 3 12 0 idMat).2.x ∧
      (transform_bounds (some (packedMem exPoints)) 3 12 0 idMat).1.y ≤
        (transform_bounds (some (packedMem exPoints)) 3 12 0 idMat).2.y ∧
      (transform_bounds (some (packedMem exPoints)) 3 12 0 idMat).1.z ≤
        (transform_bounds (some (packedMem exPoints)) 3 12 0 idMat).2.z :=
  c4_min_le_max (packedMem exPoints) 3 12 0 idMat (by norm_num)

lemma inf_range_perm (n : ℕ) (hn : n ≠ 0) (σ : Equiv.Perm (Fin n)) (g g2 : ℕ → ℚ)
    (h : ∀ i : Fin n, g2 (i : ℕ) = g ((σ i : Fin n) : ℕ)) :
    (Finset.range n).inf' (Finset.nonempty_range_iff.mpr hn) g2 =
      (Finset.range n).inf' (Finset.nonempty_range_iff.mpr hn) g := by
  apply le_antisymm
  · apply Finset.le_inf'
    intro b hb
    have hb' : b < n := Finset.mem_range.mp hb
    have hmem : ((σ.symm ⟨b, hb'⟩ : Fin n) : ℕ) ∈ Finset.range n := by
      rw [Finset.mem_range]; exact (σ.symm ⟨b, hb'⟩).isLt
    have hle := Finset.inf'_le g2 hmem
    have heq : g2 ((σ.symm ⟨b, hb'⟩ : Fin n) : ℕ) = g b := by
      rw [h (σ.symm ⟨b, hb'⟩), Equiv.apply_symm_apply]
    exact le_trans hle (le_of_eq heq)
  · apply Finset.le_inf'
    intro b hb
    have hb' : b < n := Finset.mem_range.mp hb
    have hmem : ((σ ⟨b, hb'⟩ : Fin n) : ℕ) ∈ Finset.range n := by
      rw [Finset.mem_range]; exact (σ ⟨b, hb'⟩).isLt
    have hle := Finset.inf'_le g hmem
    exact le_trans hle (le_of_eq (h ⟨b, hb'⟩).symm)

lemma sup_range_perm (n : ℕ) (hn : n ≠ 0) (σ : Equiv.Perm (Fin n)) (g g2 : ℕ → ℚ)
    (h : ∀ i : Fin n, g2 (i : ℕ) = g ((σ i : Fin n) : ℕ)) :
    (Finset.range n).sup' (Finset.nonempty_range_iff.mpr hn) g2 =
      (Finset.range n).sup' (Finset.nonempty_range_iff.mpr hn) g := by
  apply le_antisymm
  · apply Finset.sup'_le
    intro b hb
    have hb' : b < n := Finset.mem_range.mp hb
    have hmem : ((σ ⟨b, hb'⟩ : Fin n) : ℕ) ∈ Finset.range n := by
      rw [Finset.mem_range]; exact (σ ⟨b, hb'⟩).isLt
    have hle := Finset.le_sup' g hmem
    exact le_trans (le_of_eq (h ⟨b, hb'⟩)) hle
  · apply Finset.sup'_le
    intro b hb
    have hb' : b < n := Finset.mem_range.mp hb
    have hmem : ((σ.symm ⟨b, hb'⟩ : Fin n) : ℕ) ∈ Finset.range n := by
      rw [Finset.mem_range]; exact (σ.symm ⟨b, hb'⟩).isLt
    have hle := Finset.le_sup' g2 hmem
    have heq : g2 ((σ.symm ⟨b, hb'⟩ : Fin n) : ℕ) = g b := by
      rw [h (σ.symm ⟨b, hb'⟩), Equiv.apply_symm_apply]
    exact le_trans (le_of_eq heq.symm) hle

/-- C5: reordering the vertex records does not change the resulting AABB:
if the records of `mem2` are those of `mem` permuted by `σ` (same count,
stride, and offset), the outputs agree. -/
theorem c5_permutation_invariance (n : ℕ) (σ : Equiv.Perm (Fin n))
    (mem mem2 : Mem) (stride_bytes position_offset : ℤ) (matrix : Mat16)
    (h : ∀ i : Fin n, readPos mem2 stride_bytes position_offset (i : ℕ) =
      readPos mem stride_bytes position_offset ((σ i : Fin n) : ℕ)) :
    transform_bounds (some mem2) (n : ℤ) stride_bytes position_offset matrix =
      transform_bounds (some mem) (n : ℤ) stride_bytes position_offset matrix := by
  by_cases hn : n = 0
  · subst hn; rfl
  · have hn' : ((n : ℤ)).toNat ≠ 0 := by omega
    rw [transform_bounds_spec mem2 _ _ _ _ hn',
      transform_bounds_spec mem _ _ _ _ hn']
    simp only [Prod.mk.injEq, Vec3.mk.injEq]
    refine ⟨⟨?_, ?_, ?_⟩, ?_, ?_, ?_⟩
    · exact inf_range_perm n hn σ _ _ (fun i => by rw [h i])
    · exact inf_range_perm n hn σ _ _ (fun i => by rw [h i])
    · exact inf_range_perm n hn σ _ _ (fun i => by rw [h i])
    · exact sup_range_perm n hn σ _ _ (fun i => by rw [h i])
    · exact sup_range_perm n hn σ _ _ (fun i => by rw [h i])
    · exact sup_range_perm n hn σ _ _ (fun i => by rw [h i])

lemma readPos_packedMem (p : ℕ → Vec3) (i : ℕ) :
    readPos (packedMem p) 12 0 i = p i := by
  have h0m : ((i : ℤ) * 12 + 0) % 12 = 0 := by omega
  have h0d : (((i : ℤ) * 12 + 0) / 12).toNat = i := by omega
  have hd4 : ¬ ((12 : ℤ) ∣ (i : ℤ) * 12 + 4) := by omega
  have h4m : ((i : ℤ) * 12 + 4) % 12 = 4 := by omega
  have h4d : (((i : ℤ) * 12 + 4) / 12).toNat = i := by omega
  have hd8 : ¬ ((12 : ℤ) ∣ (i : ℤ) * 12 + 8) := by omega
  have h8m : ((i : ℤ) * 12 + 8) % 12 = 8 := by omega
  have h8d : (((i : ℤ) * 12 + 8) / 12).toNat = i := by omega
  simp [readPos, packedMem, h0m, h0d, hd4, h4m, h4d, hd8, h8m, h8d]

/-- C5 witness: swapping the two records `(0,0,0)` and `(1,2,3)` leaves the
result unchanged. -/
theorem c5_permutation_invariance_witness :
    transform_bounds (some (packedMem (fun i => exPoints (1 - i)))) ((2 : ℕ) : ℤ)
        12 0 idMat =
      transform_bounds (some (packedMem exPoints)) ((2 : ℕ) : ℤ) 12 0 idMat := by
  refine c5_permutation_invariance 2 (Equiv.swap 0 1) (packedMem exPoints)
    (packedMem (fun i => exPoints (1 - i))) 12 0 idMat ?_
  intro i
  fin_cases i <;>
    rw [readPos_packedMem, readPos_packedMem] <;> rfl

lemma inf_range_add (n : ℕ) (hn : n ≠ 0) (g : ℕ → ℚ) (c : ℚ) :
    (Finset.range n).inf' (Finset.nonempty_range_iff.mpr hn) (fun i => g i + c) =
      (Finset.range n).inf' (Finset.nonempty_range_iff.mpr hn) g + c := by
  apply le_antisymm
  · obtain ⟨j, hj, hEq⟩ :=
      Finset.exists_mem_eq_inf' (Finset.nonempty_range_iff.mpr hn) g
    rw [hEq]
    exact Finset.inf'_le (fun i => g i + c) hj
  · apply Finset.le_inf'
    intro b hb
    exact add_le_add_right (Finset.inf'_le g hb) c

lemma sup_range_add (n : ℕ) (hn : n ≠ 0) (g : ℕ → ℚ) (c : ℚ) :
    (Finset.range n).sup' (Finset.nonempty_range_iff.mpr hn) (fun i => g i + c) =
      (Finset.range n).sup' (Finset.nonempty_range_iff.mpr hn) g + c := by
  apply le_antisymm
  · apply Finset.sup'_le
    intro b hb
    exact add_le_add_right (Finset.le_sup' g hb) c
  · obtain ⟨j, hj, hEq⟩ :=
      Finset.exists_mem_eq_sup' (Finset.nonempty_range_iff.mpr hn) g
    rw [hEq]
    exact Finset.le_sup' (fun i => g i + c) hj

lemma transformPoint_translate (tx ty tz : ℚ) (p : Vec3) :
    transformPoint (translateMat tx ty tz) p = ⟨p.x + tx, p.y + ty, p.z + tz⟩ := by
  simp [transformPoint, translateMat, idMat]

lemma transformPoint_id (p : Vec3) : transformPoint idMat p = p := by
  simp [transformPoint, idMat]

/-- C6: with a translation-only matrix (upper 3x3 identity, translation
column `(tx,ty,tz)`), the AABB equals the identity-matrix AABB of the same
buffer shifted by `(tx,ty,tz)` on every component. -/
theorem c6_translation_shift (mem : Mem)
    (vertex_count stride_bytes position_offset : ℤ) (tx ty tz : ℚ)
    (hc : 0 < vertex_count) :
    transform_bounds (some mem) vertex_count stride_bytes position_offset
        (translateMat tx ty tz) =
      (⟨(transform_bounds (some mem) vertex_count stride_bytes position_offset idMat).1.x + tx,
        (transform_bounds (some mem) vertex_count stride_bytes position_offset idMat).1.y + ty,
        (transform_bounds (some mem) vertex_count stride_bytes position_offset idMat).1.z + tz⟩,
       ⟨(transform_bounds (some mem) vertex_count stride_bytes position_offset idMat).2.x + tx,
        (transform_bounds (some mem) vertex_count stride_bytes position_offset idMat).2.y + ty,
        (transform_bounds (some mem) vertex_count stride_bytes position_offset idMat).2.z + tz⟩) := by
  have hn : vertex_count.toNat ≠ 0 := by omega
  rw [transform_bounds_spec mem vertex_count stride_bytes position_offset
      (translateMat tx ty tz) hn,
    transform_bounds_spec mem vertex_count stride_bytes position_offset idMat hn]
  simp only [transformPoint_translate, transformPoint_id]
  dsimp only
  simp only [Prod.mk.injEq, Vec3.mk.injEq]
  exact ⟨⟨inf_range_add _ hn _ tx, inf_range_add _ hn _ ty, inf_range_add _ hn _ tz⟩,
    sup_range_add _ hn _ tx, sup_range_add _ hn _ ty, sup_range_add _ hn _ tz⟩

/-- C6 witness: translating the example buffer by `(10, 20, 30)`. -/
theorem c6_translation_shift_witness :
    transform_bounds (some (packedMem exPoints)) 3 12 0 (translateMat 10 20 30) =
      (⟨(transform_bounds (some (packedMem exPoints)) 3 12 0 idMat).1.x + 10,
        (transform_bounds (some (packedMem exPoints)) 3 12 0 idMat).1.y + 20,
        (transform_bounds (some (packedMem exPoints)) 3 12 0 idMat).1.z + 30⟩,
       ⟨(transform_bounds (some (packedMem exPoints)) 3 12 0 idMat).2.x + 10,
        (transform_bounds (some (packedMem exPoints)) 3 12 0 idMat).2.y + 20,
        (transform_bounds (some (packedMem exPoints)) 3 12 0 idMat).2.z + 30⟩) :=
  c6_translation_shift (packedMem exPoints) 3 12 0 10 20 30 (by norm_num)

lemma tbLoop_congr (m1 m2 : Mat16) (mem1 mem2 : Mem) (s1 o1 s2 o2 : ℤ) (n : ℕ)
    (h : ∀ i, i < n →
      transformPoint m1 (readPos mem1 s1 o1 i) =
        transformPoint m2 (readPos mem2 s2 o2 i)) :
    tbLoop m1 mem1 s1 o1 n = tbLoop m2 mem2 s2 o2 n := by
  induction n with
  | zero => rfl
  | succ k ih =>
    have h1 : tbLoop m1 mem1 s1 o1 (k + 1) =
        tbStep m1 mem1 s1 o1 (tbLoop m1 mem1 s1 o1 k) k := by
      simp [tbLoop, List.range_succ]
    have h2 : tbLoop m2 mem2 s2 o2 (k + 1) =
        tbStep m2 mem2 s2 o2 (tbLoop m2 mem2 s2 o2 k) k := by
      simp [tbLoop, List.range_succ]
    rw [h1, h2, ih (fun i hi => h i (by omega))]
    unfold tbStep
    rw [h k (by omega)]

/-- C7: a buffer whose records embed the positions with padding, at any
stride and position offset, yields the same AABB as the tightly packed
buffer (stride 12, offset 0) holding only those positions. -/
theorem c7_stride_offset_correct (p : ℕ → Vec3)
    (vertex_count stride_bytes position_offset : ℤ) (memP : Mem)
    (matrix : Mat16)
    (h : ∀ i : ℕ, (i : ℤ) < vertex_count →
      readPos memP stride_bytes position_offset i = p i) :
    transform_bounds (some memP) vertex_count stride_bytes position_offset matrix =
      transform_bounds (some (packedMem p)) vertex_count 12 0 matrix := by
  unfold transform_bounds
  by_cases hc : vertex_count ≤ 0
  · simp [hc]
  · simp only [hc, ite_false]
    rw [tbLoop_congr matrix matrix memP (packedMem p) stride_bytes position_offset
      12 0 vertex_count.toNat
      (fun i hi => by rw [h i (by omega), readPos_packedMem])]

/-- C7 witness: the padded example buffer (stride 16, offset 4) matches the
tightly packed buffer of its two positions. -/
theorem c7_stride_offset_correct_witness :
    transform_bounds (some padMemEx) 2 16 4 idMat =
      transform_bounds (some (packedMem padPoints)) 2 12 0 idMat := by
  refine c7_stride_offset_correct padPoints 2 16 4 padMemEx idMat ?_
  intro i hi
  have hi' : i = 0 ∨ i = 1 := by omega
  rcases hi' with hi0 | hi1
  · subst hi0; rfl
  · subst hi1; rfl

/-- C8: the matrix entries at column-major indices 3, 7, 11 and 15 are
never read: two calls whose matrices differ only there produce identical
outputs. -/
theorem c8_last_row_never_read (vertices : Option Mem)
    (vertex_count stride_bytes position_offset : ℤ) (m1 m2 : Mat16)
    (h : ∀ j : ℕ, j ≠ 3 → j ≠ 7 → j ≠ 11 → j ≠ 15 → m1 j = m2 j) :
    transform_bounds vertices vertex_count stride_bytes position_offset m1 =
      transform_bounds vertices vertex_count stride_bytes position_offset m2 := by
  cases vertices with
  | none => rfl
  | some mem =>
    unfold transform_bounds
    by_cases hc : vertex_count ≤ 0
    · simp [hc]
    · simp only [hc, ite_false]
      rw [tbLoop_congr m1 m2 mem mem stride_bytes position_offset
        stride_bytes position_offset vertex_count.toNat
        (fun i _ => by
          unfold transformPoint
          rw [h 0 (by decide) (by decide) (by decide) (by decide),
            h 4 (by decide) (by decide) (by decide) (by decide),
            h 8 (by decide) (by decide) (by decide) (by decide),
            h 12 (by decide) (by decide) (by decide) (by decide),
            h 1 (by decide) (by decide) (by decide) (by decide),
            h 5 (by decide) (by decide) (by decide) (by decide),
            h 9 (by decide) (by decide) (by decide) (by decide),
            h 13 (by decide) (by decide) (by decide) (by decide),
            h 2 (by decide) (by decide) (by decide) (by decide),
            h 6 (by decide) (by decide) (by decide) (by decide),
            h 10 (by decide) (by decide) (by decide) (by decide),
            h 14 (by decide) (by decide) (by decide) (by decide)])]

/-- C8 witness: stuffing `99` into the last-row entries of the identity
matrix does not change the result on the example buffer. -/
theorem c8_last_row_never_read_witness :
    transform_bounds (some (packedMem exPoints)) 3 12 0 idMat =
      transform_bounds (some (packedMem exPoints)) 3 12 0 junkLastRowMat := by
  refine c8_last_row_never_read (some (packedMem exPoints)) 3 12 0 idMat
    junkLastRowMat ?_
  intro j h3 h7 h11 h15
  have hcond : ¬ (j = 3 ∨ j = 7 ∨ j = 11 ∨ j = 15) := by tauto
  rw [junkLastRowMat, if_neg hcond]

/-- C9: every output cell is written exactly once per call, and the final
output contents never depend on the prior contents of the two output
arrays. -/
theorem c9_outputs_write_once_no_read (vertices : Option Mem)
    (vertex_count stride_bytes position_offset : ℤ) (matrix : Mat16) :
    (∀ t : OutTarget,
      ((tb_writes vertices vertex_count stride_bytes position_offset
          matrix).filter (fun w => decide (w.1 = t))).length = 1) ∧
    ∀ a1 a2 b1 b2 : Fin 3 → ℚ,
      transform_bounds_out vertices vertex_count stride_bytes position_offset
          matrix a1 a2 =
        transform_bounds_out vertices vertex_count stride_bytes position_offset
          matrix b1 b2 := by
  constructor
  · intro t
    rcases t with k | k <;>
      cases vertices with
      | none => fin_cases k <;> simp [tb_writes]
      | some mem =>
        by_cases hc : vertex_count ≤ 0 <;>
          fin_cases k <;> simp [tb_writes, hc]
  · intro a1 a2 b1 b2
    cases vertices with
    | none =>
      simp only [transform_bounds_out, tb_writes, applyWrites, List.foldl]
      refine Prod.ext (funext fun k => ?_) (funext fun k => ?_) <;>
        fin_cases k <;> simp [Function.update]
    | some mem =>
      by_cases hc : vertex_count ≤ 0 <;>
        simp only [transform_bounds_out, tb_writes, applyWrites, hc, ite_true,
          ite_false, List.foldl] <;>
        refine Prod.ext (funext fun k => ?_) (funext fun k => ?_) <;>
          fin_cases k <;> simp [Function.update]

/-- C10: in the degenerate case (null buffer or `vertex_count <= 0`) the
routine reads neither the vertex buffer nor the matrix, and its result does
not depend on the matrix at all. -/
theorem c10_degenerate_no_reads (vertices : Option Mem)
    (vertex_count stride_bytes position_offset : ℤ)
    (h : vertices = none ∨ vertex_count ≤ 0) :
    tb_reads vertices vertex_count stride_bytes position_offset = [] ∧
    ∀ m1 m2 : Mat16,
      transform_bounds vertices vertex_count stride_bytes position_offset m1 =
        transform_bounds vertices vertex_count stride_bytes position_offset m2 := by
  rcases h with h | h
  · subst h
    exact ⟨rfl, fun m1 m2 => rfl⟩
  · cases vertices with
    | none => exact ⟨rfl, fun m1 m2 => rfl⟩
    | some mem =>
      constructor
      · simp [tb_reads, h]
      · intro m1 m2
        simp [transform_bounds, h]

/-- C10 witness: with `vertex_count = 0` on a present buffer, no reads are
performed and the matrix is irrelevant. -/
theorem c10_degenerate_no_reads_witness :
    tb_reads (some (packedMem exPoints)) 0 12 0 = [] ∧
    ∀ m1 m2 : Mat16,
      transform_bounds (some (packedMem exPoints)) 0 12 0 m1 =
        transform_bounds (some (packedMem exPoints)) 0 12 0 m2 :=
  c10_degenerate_no_reads (some (packedMem exPoints)) 0 12 0 (Or.inr (by norm_num))
